import Mathlib

/-!
Verification of the corsa asynchronous-channel library.

The development embeds the two synchronization cores of the repository:

* `Corsa.Chan` models the canonical split Sender/Receiver channel of
  `src/src/channel.ts`: a shared status register, the awaiters list, and the
  unbounded transfer queue it is built on.  The queue and deferred-promise
  primitives (`./queue`, `./defer`) are not present under `src/`; they are
  modelled from the specification (sections 4.1 and 4.2).  Each public call is
  one atomic event (the library is single-threaded cooperative, and spec
  section 5 requires write/read to be logically atomic); an event records its
  externally observable effects (`Corsa.Obs`): promise resolutions, promise
  rejections, thrown errors, and values returned by receives.

* `Corsa.Stream` models the bounded stream of `src/src/corsa.ts`
  (`Stream.write` / `Stream.read` with `writePause` / `writeResume` /
  `readPause` / `readResume`).  The same admission logic appears in
  `Memory.write` / `Memory.read` of `src/src/channels/channel.ts`.  A writer
  woken by `read` finishes its delivery in a later continuation, which the
  model exposes as the explicit `wokenRun` scheduler event.
-/

namespace Corsa

/-- Channel status register, from the `Status` enum of `src/src/channel.ts`. -/
inductive Status where
  | ENDED_BY_SENDER
  | ENDED_BY_RECEIVER
  | OPEN
deriving DecidableEq, Repr

/-- A value slot carried by the queue: a payload of type `T` or the distinguished
`Eof` sentinel (`T | typeof Eof` in the source). -/
inductive Slot (α : Type) where
  | value (v : α)
  | eof
deriving DecidableEq, Repr

/-- The two error classes `SenderEndedError` and `ReceiverEndedError`. -/
inductive Err where
  | senderEnded
  | receiverEnded
deriving DecidableEq, Repr

/-- Externally observable effects of one atomic event.  `sendThrown` is a
synchronous throw from `Sender.assert`; `ackResolved` / `ackRejected` are the
resolution / rejection of the deferred promise of the send or end call with the
given sequence number; `received rid s` is the receive call with sequence
number `rid` returning slot `s`. -/
inductive Obs (α : Type) where
  | sendThrown (sid : Nat) (e : Err)
  | ackResolved (sid : Nat)
  | ackRejected (sid : Nat) (e : Err)
  | received (rid : Nat) (s : Slot α)
deriving DecidableEq, Repr

/-- Shared channel state: the `Shared` record (status and awaiters) of
`src/src/channel.ts` together with the state of the transfer queue it owns.
The queue state is modelled from spec section 4.2: `buffer` holds enqueued
slots not yet claimed, `readers` the suspended receive calls waiting on an
empty buffer (FIFO).  `nextSend` / `nextRecv` are ghost counters numbering the
send/end and receive calls. -/
structure Chan (α : Type) where
  status : Status
  awaiters : List Nat
  buffer : List (Slot α)
  readers : List Nat
  nextSend : Nat
  nextRecv : Nat
deriving DecidableEq, Repr

/-- Freshly constructed channel, as built by `channel<T>()`. -/
def Chan.init (α : Type) : Chan α :=
  { status := .OPEN, awaiters := [], buffer := [], readers := [], nextSend := 0
    nextRecv := 0 }

variable {α β : Type}

/-- Continuation of `Receiver.receive` after its `dequeue()` yields slot `s`
(lines 100-104 of `src/src/channel.ts`): set the status to `ENDED_BY_SENDER`
when the slot is the Eof marker, shift and resolve the oldest awaiter, and
return the slot. -/
def recvContinue (c : Chan α) (rid : Nat) (s : Slot α) : Chan α × List (Obs α) :=
  let st := match s with
    | .eof => Status.ENDED_BY_SENDER
    | .value _ => c.status
  match c.awaiters with
  | [] => ({ c with status := st }, [Obs.received rid s])
  | a :: rest =>
    ({ c with status := st, awaiters := rest },
      [Obs.ackResolved a, Obs.received rid s])

/-- Modelled from the spec: the `enqueue` half of the `queue` primitive
imported by `src/src/channel.ts` from `./queue`, whose source file is not in
the repository snapshot.  Spec section 4.2 (unbounded transfer queue): if a
receiver is suspended, hand the slot to the oldest one, otherwise append it to
the buffer. -/
def enqueue (c : Chan α) (s : Slot α) : Chan α × List (Obs α) :=
  match c.readers with
  | rid :: rest => recvContinue { c with readers := rest } rid s
  | [] => ({ c with buffer := c.buffer ++ [s] }, [])

/-- The four public operations on a channel endpoint pair.  `sendEnd` is
`Sender.end`, `recvEnd` is `Receiver.end`. -/
inductive Op (α : Type) where
  | send (v : α)
  | sendEnd
  | receive
  | recvEnd
deriving DecidableEq, Repr

/-- Common body of `Sender.send` and `Sender.end` (lines 67-88 of
`src/src/channel.ts`): `assert` throws on a terminal status before anything is
enqueued; otherwise a fresh awaiter is pushed and the slot is enqueued. -/
def sendSlot (c : Chan α) (s : Slot α) : Chan α × List (Obs α) :=
  match c.status with
  | .ENDED_BY_RECEIVER =>
    ({ c with nextSend := c.nextSend + 1 },
      [Obs.sendThrown c.nextSend Err.receiverEnded])
  | .ENDED_BY_SENDER =>
    ({ c with nextSend := c.nextSend + 1 },
      [Obs.sendThrown c.nextSend Err.senderEnded])
  | .OPEN =>
    enqueue { c with awaiters := c.awaiters ++ [c.nextSend]
                     nextSend := c.nextSend + 1 } s

/-- `Receiver.receive` (lines 97-117 of `src/src/channel.ts`).  In `OPEN`
status it dequeues (popping the buffer, or suspending as a pending reader when
the buffer is empty); in `ENDED_BY_SENDER` it rejects every outstanding awaiter
with `SenderEndedError` and returns Eof; in `ENDED_BY_RECEIVER` it returns Eof
immediately. -/
def receiveStep (c : Chan α) : Chan α × List (Obs α) :=
  match c.status with
  | .OPEN =>
    match c.buffer with
    | s :: rest =>
      recvContinue { c with buffer := rest, nextRecv := c.nextRecv + 1 } c.nextRecv s
    | [] =>
      ({ c with readers := c.readers ++ [c.nextRecv], nextRecv := c.nextRecv + 1 }, [])
  | .ENDED_BY_SENDER =>
    ({ c with awaiters := [], nextRecv := c.nextRecv + 1 },
      c.awaiters.map (fun a => Obs.ackRejected a Err.senderEnded)
        ++ [Obs.received c.nextRecv Slot.eof])
  | .ENDED_BY_RECEIVER =>
    ({ c with nextRecv := c.nextRecv + 1 }, [Obs.received c.nextRecv Slot.eof])

/-- `Receiver.end` (lines 119-125 of `src/src/channel.ts`): unconditionally set
the status to `ENDED_BY_RECEIVER` and reject every outstanding awaiter with
`ReceiverEndedError`. -/
def recvEndStep (c : Chan α) : Chan α × List (Obs α) :=
  ({ c with status := .ENDED_BY_RECEIVER, awaiters := [] },
    c.awaiters.map (fun a => Obs.ackRejected a Err.receiverEnded))

/-- One atomic event of the channel. -/
def step (c : Chan α) (op : Op α) : Chan α × List (Obs α) :=
  match op with
  | .send v => sendSlot c (Slot.value v)
  | .sendEnd => sendSlot c Slot.eof
  | .receive => receiveStep c
  | .recvEnd => recvEndStep c

/-- Run a sequence of events, concatenating their observations. -/
def run (c : Chan α) (ops : List (Op α)) : Chan α × List (Obs α) :=
  match ops with
  | [] => (c, [])
  | op :: rest =>
    let p := step c op
    let q := run p.1 rest
    (q.1, p.2 ++ q.2)

/-- The slots returned by the receive calls of an observation trace, in
order. -/
def recvSlots (l : List (Obs α)) : List (Slot α) :=
  l.filterMap fun o => match o with
    | Obs.received _ s => some s
    | _ => none

/-- The sequence numbers of the send/end calls whose promises were resolved, in
resolution order. -/
def ackIds (l : List (Obs α)) : List Nat :=
  l.filterMap fun o => match o with
    | Obs.ackResolved a => some a
    | _ => none

/-- Predicate selecting receive operations, for counting. -/
def isReceive : Op α → Bool
  | Op.receive => true
  | _ => false

/-- Basic trace lemma: running a concatenation of event lists. -/
theorem run_append (c : Chan α) (l1 l2 : List (Op α)) :
    run c (l1 ++ l2) =
      ((run (run c l1).1 l2).1, (run c l1).2 ++ (run (run c l1).1 l2).2) := by
  induction l1 generalizing c with
  | nil => simp [run]
  | cons op rest ih => simp [run, ih, List.append_assoc]

/-- Claim C10: `Receiver.end()` is not guarded by the current status: calling
it when the status is already `ENDED_BY_SENDER` overwrites the status to
`ENDED_BY_RECEIVER`, so a `send()` attempted after that sequence throws
`ReceiverEndedError` rather than `SenderEndedError`.  Witnessed on the trace
Sender.end; receive (observes Eof, status becomes `ENDED_BY_SENDER`);
Receiver.end (status becomes `ENDED_BY_RECEIVER`); send 7 (throws
`ReceiverEndedError`). -/
theorem receiverEnd_overwrites_senderEnd :
    (run (Chan.init Nat) [Op.sendEnd, Op.receive]).1.status = Status.ENDED_BY_SENDER ∧
    (run (Chan.init Nat) [Op.sendEnd, Op.receive, Op.recvEnd]).1.status
      = Status.ENDED_BY_RECEIVER ∧
    (run (Chan.init Nat) [Op.sendEnd, Op.receive, Op.recvEnd, Op.send 7]).2
      = [Obs.ackResolved 0, Obs.received 0 Slot.eof,
         Obs.sendThrown 1 Err.receiverEnded] := by
  refine ⟨?_, ?_, ?_⟩ <;> rfl

/-- Claim C3: `Receiver.end()` transitions the status to `ENDED_BY_RECEIVER`
within the same atomic event, rejects every currently outstanding awaiter with
`ReceiverEndedError`, and leaves the awaiters list empty, so no send/end call
pending at that moment remains pending afterwards. -/
theorem receiverEnd_rejects_all_awaiters (c : Chan α) :
    (step c Op.recvEnd).1.status = Status.ENDED_BY_RECEIVER ∧
    (step c Op.recvEnd).1.awaiters = [] ∧
    (step c Op.recvEnd).2
      = c.awaiters.map (fun a => Obs.ackRejected a Err.receiverEnded) := by
  refine ⟨rfl, rfl, rfl⟩

/-- Claim C4: on a channel whose status is terminal, `send` and `end` fail in
the same synchronous event, before enqueuing anything: the resulting state has
the same status, awaiters list, buffer and readers (only the ghost call counter
advances), and the thrown error is `SenderEndedError` under `ENDED_BY_SENDER`
and `ReceiverEndedError` under `ENDED_BY_RECEIVER`. -/
theorem send_terminal_fails_fast (c : Chan α) (v : α) (h : c.status ≠ Status.OPEN) :
    step c (Op.send v)
      = ({ c with nextSend := c.nextSend + 1 },
         [Obs.sendThrown c.nextSend
           (if c.status = Status.ENDED_BY_SENDER then Err.senderEnded
            else Err.receiverEnded)]) ∧
    step c Op.sendEnd
      = ({ c with nextSend := c.nextSend + 1 },
         [Obs.sendThrown c.nextSend
           (if c.status = Status.ENDED_BY_SENDER then Err.senderEnded
            else Err.receiverEnded)]) := by
  rcases hs : c.status with _ | _ | _
  · exact ⟨by simp [step, sendSlot, hs], by simp [step, sendSlot, hs]⟩
  · exact ⟨by simp [step, sendSlot, hs], by simp [step, sendSlot, hs]⟩
  · exact absurd hs h

/-- Witness for C4 at a concrete terminal channel. -/
theorem send_terminal_fails_fast_witness :
    step { Chan.init Nat with status := Status.ENDED_BY_SENDER } (Op.send 5)
      = ({ Chan.init Nat with status := Status.ENDED_BY_SENDER, nextSend := 1 },
         [Obs.sendThrown 0 Err.senderEnded]) := by
  have h := send_terminal_fails_fast
    { Chan.init Nat with status := Status.ENDED_BY_SENDER } 5 (by decide)
  simpa using h.1

/-- Claim C7: a `receive()` called when the status is `ENDED_BY_SENDER` rejects
every still-outstanding awaiter with `SenderEndedError`, returns the Eof marker
in the same event (no suspension: the readers list is untouched), and leaves
the awaiters list empty. -/
theorem receive_senderEnded_drains (c : Chan α) (h : c.status = Status.ENDED_BY_SENDER) :
    step c Op.receive
      = ({ c with awaiters := [], nextRecv := c.nextRecv + 1 },
         c.awaiters.map (fun a => Obs.ackRejected a Err.senderEnded)
           ++ [Obs.received c.nextRecv Slot.eof]) := by
  simp [step, receiveStep, h]

/-- Witness for C7 at a concrete channel with two outstanding awaiters. -/
theorem receive_senderEnded_drains_witness :
    step { Chan.init Nat with status := Status.ENDED_BY_SENDER, awaiters := [0, 1] }
        Op.receive
      = ({ Chan.init Nat with status := Status.ENDED_BY_SENDER, nextRecv := 1 },
         [Obs.ackRejected 0 Err.senderEnded, Obs.ackRejected 1 Err.senderEnded,
          Obs.received 0 Slot.eof]) := by
  have h := receive_senderEnded_drains
    { Chan.init Nat with status := Status.ENDED_BY_SENDER, awaiters := [0, 1] } rfl
  simpa using h

/-- The status set by the receive continuation: `ENDED_BY_SENDER` exactly when
the dequeued slot is the Eof marker. -/
theorem recvContinue_status (c : Chan α) (rid : Nat) (s : Slot α) :
    (recvContinue c rid s).1.status
      = match s with
        | .eof => Status.ENDED_BY_SENDER
        | .value _ => c.status := by
  obtain ⟨st, aw, bf, rd, ns, nr⟩ := c
  cases s <;> cases aw <;> rfl

/-- A receive continuation observed returning Eof only for the Eof slot. -/
theorem recvContinue_mem_eof (c : Chan α) {rid rid' : Nat} {s : Slot α}
    (h : Obs.received rid' Slot.eof ∈ (recvContinue c rid s).2) : s = Slot.eof := by
  obtain ⟨st, aw, bf, rd, ns, nr⟩ := c
  cases s with
  | eof => rfl
  | value v => cases aw <;> simp [recvContinue] at h

/-- If enqueuing slot `s` makes some receive return Eof, the resulting status is
`ENDED_BY_SENDER`. -/
theorem enqueue_mem_eof (c : Chan α) (s : Slot α) (rid' : Nat)
    (h : Obs.received rid' Slot.eof ∈ (enqueue c s).2) :
    (enqueue c s).1.status = Status.ENDED_BY_SENDER := by
  obtain ⟨st, aw, bf, rd, ns, nr⟩ := c
  cases rd with
  | nil => simp [enqueue] at h
  | cons rid rest =>
    rw [show enqueue ⟨st, aw, bf, rid :: rest, ns, nr⟩ s
        = recvContinue ⟨st, aw, bf, rest, ns, nr⟩ rid s from rfl] at h ⊢
    have hs := recvContinue_mem_eof _ h
    subst hs
    rw [recvContinue_status]

/-- Claim C8: the status register is monotonic.  First conjunct: no event ever
sets the status back to `OPEN` — if the status is `OPEN` after a step it was
`OPEN` before.  Second conjunct: in both terminal states, `send`, `Sender.end`
and `receive` neither change the status nor suspend anybody (the readers list
is unchanged): they fail fast or short-circuit. -/
theorem status_monotonic_terminal_stable :
    (∀ (c : Chan α) (op : Op α),
        (step c op).1.status = Status.OPEN → c.status = Status.OPEN) ∧
    (∀ (c : Chan α) (v : α), c.status ≠ Status.OPEN →
        ((step c (Op.send v)).1.status = c.status
          ∧ (step c (Op.send v)).1.readers = c.readers) ∧
        ((step c Op.sendEnd).1.status = c.status
          ∧ (step c Op.sendEnd).1.readers = c.readers) ∧
        ((step c Op.receive).1.status = c.status
          ∧ (step c Op.receive).1.readers = c.readers)) := by
  constructor
  · intro c op h
    rcases hs : c.status with _ | _ | _
    · cases op <;>
        simp [step, sendSlot, receiveStep, recvEndStep, hs] at h
    · cases op <;>
        simp [step, sendSlot, receiveStep, recvEndStep, hs] at h
    · rfl
  · intro c v h
    rcases hs : c.status with _ | _ | _
    · refine ⟨⟨?_, ?_⟩, ⟨?_, ?_⟩, ?_, ?_⟩ <;>
        simp [step, sendSlot, receiveStep, hs]
    · refine ⟨⟨?_, ?_⟩, ⟨?_, ?_⟩, ?_, ?_⟩ <;>
        simp [step, sendSlot, receiveStep, hs]
    · exact absurd hs h

/-- Witness for C8: on a fresh channel a buffering send keeps the status
`OPEN` (first conjunct applied), and on a receiver-ended channel a send leaves
status and readers untouched (second conjunct applied). -/
theorem status_monotonic_terminal_stable_witness :
    (Chan.init Nat).status = Status.OPEN ∧
    (step { Chan.init Nat with status := Status.ENDED_BY_RECEIVER }
        (Op.send 3)).1.status = Status.ENDED_BY_RECEIVER ∧
    (step { Chan.init Nat with status := Status.ENDED_BY_RECEIVER }
        Op.receive).1.readers = [] := by
  refine ⟨?_, ?_, ?_⟩
  · exact (@status_monotonic_terminal_stable Nat).1 (Chan.init Nat) (Op.send 3) rfl
  · exact ((@status_monotonic_terminal_stable Nat).2
      { Chan.init Nat with status := Status.ENDED_BY_RECEIVER } 3 (by decide)).1.1
  · exact ((@status_monotonic_terminal_stable Nat).2
      { Chan.init Nat with status := Status.ENDED_BY_RECEIVER } 3 (by decide)).2.2.2

/-- Observation projections distribute over concatenation. -/
theorem recvSlots_append (l1 l2 : List (Obs α)) :
    recvSlots (l1 ++ l2) = recvSlots l1 ++ recvSlots l2 := by
  simp [recvSlots]

/-- Awaiter rejections contribute no received slots. -/
theorem recvSlots_rejections (l : List Nat) (e : Err) :
    recvSlots (l.map fun a => Obs.ackRejected a e) = ([] : List (Slot α)) := by
  induction l with
  | nil => rfl
  | cons a rest ih => simp [recvSlots]

/-- On a terminal channel every event preserves the terminal status, never
suspends anybody, and receives return exactly one Eof each. -/
theorem step_terminal (c : Chan α) (h : c.status ≠ Status.OPEN) (op : Op α) :
    (step c op).1.status ≠ Status.OPEN ∧
    (step c op).1.readers = c.readers ∧
    recvSlots (step c op).2 = if isReceive op then [Slot.eof] else [] := by
  rcases hs : c.status with _ | _ | _
  · cases op <;>
      simp [step, sendSlot, receiveStep, recvEndStep, isReceive, hs,
        recvSlots_append, recvSlots_rejections, recvSlots]
  · cases op <;>
      simp [step, sendSlot, receiveStep, recvEndStep, isReceive, hs,
        recvSlots_append, recvSlots_rejections, recvSlots]
  · exact absurd hs h

/-- Claim C5: EOF idempotence.  First conjunct: whenever any event makes a
receive return the Eof marker, the post-state status is terminal.  Second
conjunct: from any terminal status, an arbitrary continuation of the trace has
every one of its receive calls return Eof (one Eof per receive call — none
suspends) and registers no pending reader. -/
theorem receive_eof_forever :
    (∀ (c : Chan α) (op : Op α) (rid : Nat),
        Obs.received rid Slot.eof ∈ (step c op).2 →
          (step c op).1.status ≠ Status.OPEN) ∧
    (∀ (c : Chan α) (ops : List (Op α)), c.status ≠ Status.OPEN →
        recvSlots (run c ops).2 = List.replicate (ops.countP isReceive) Slot.eof ∧
        (run c ops).1.readers = c.readers) := by
  constructor
  · intro c op rid hmem
    obtain ⟨st, aw, bf, rd, ns, nr⟩ := c
    cases op with
    | send v =>
      cases st with
      | ENDED_BY_SENDER => simp [step, sendSlot] at hmem
      | ENDED_BY_RECEIVER => simp [step, sendSlot] at hmem
      | OPEN =>
        rw [show step ⟨Status.OPEN, aw, bf, rd, ns, nr⟩ (Op.send v)
            = enqueue ⟨Status.OPEN, aw ++ [ns], bf, rd, ns + 1, nr⟩ (Slot.value v)
            from rfl] at hmem ⊢
        rw [enqueue_mem_eof _ _ _ hmem]
        simp
    | sendEnd =>
      cases st with
      | ENDED_BY_SENDER => simp [step, sendSlot] at hmem
      | ENDED_BY_RECEIVER => simp [step, sendSlot] at hmem
      | OPEN =>
        rw [show step ⟨Status.OPEN, aw, bf, rd, ns, nr⟩ Op.sendEnd
            = enqueue ⟨Status.OPEN, aw ++ [ns], bf, rd, ns + 1, nr⟩ Slot.eof
            from rfl] at hmem ⊢
        rw [enqueue_mem_eof _ _ _ hmem]
        simp
    | receive =>
      cases st with
      | ENDED_BY_SENDER => simp [step, receiveStep]
      | ENDED_BY_RECEIVER => simp [step, receiveStep]
      | OPEN =>
        cases bf with
        | nil => simp [step, receiveStep] at hmem
        | cons s rest =>
          rw [show step ⟨Status.OPEN, aw, s :: rest, rd, ns, nr⟩ Op.receive
              = recvContinue ⟨Status.OPEN, aw, rest, rd, ns, nr + 1⟩ nr s
              from rfl] at hmem ⊢
          have := recvContinue_mem_eof _ hmem
          subst this
          rw [recvContinue_status]
          simp
    | recvEnd =>
      simp [step, recvEndStep]
  · intro c ops h
    induction ops generalizing c with
    | nil => simp [run, recvSlots]
    | cons op rest ih =>
      obtain ⟨h1, h2, h3⟩ := step_terminal c h op
      obtain ⟨ih1, ih2⟩ := ih (step c op).1 h1
      refine ⟨?_, ?_⟩
      · show recvSlots ((step c op).2 ++ (run (step c op).1 rest).2) = _
        rw [recvSlots_append, h3, ih1, List.countP_cons]
        cases hop : isReceive op <;> simp [hop, List.replicate_succ]
      · show (run (step c op).1 rest).1.readers = c.readers
        rw [ih2, h2]

/-- Witness for C5 on a concrete sender-ended channel: a receive observes Eof
and leaves the status terminal, and two further receives both return Eof. -/
theorem receive_eof_forever_witness :
    (step { Chan.init Nat with status := Status.ENDED_BY_SENDER }
        Op.receive).1.status ≠ Status.OPEN ∧
    recvSlots (run { Chan.init Nat with status := Status.ENDED_BY_SENDER }
        [Op.receive, Op.receive]).2
      = List.replicate (([Op.receive, Op.receive] : List (Op Nat)).countP isReceive)
          Slot.eof := by
  constructor
  · exact (@receive_eof_forever Nat).1
      { Chan.init Nat with status := Status.ENDED_BY_SENDER } Op.receive 0 (by decide)
  · exact ((@receive_eof_forever Nat).2
      { Chan.init Nat with status := Status.ENDED_BY_SENDER }
      [Op.receive, Op.receive] (by decide)).1

/-! ### FIFO drain and acknowledgment pairing

The sender-side trace of a full conversation is `send v1 … send vn, end`; the
receiver side is `n + 1` receive calls.  The two sides may be interleaved
arbitrarily (sends and receives only suspend at their final await, so the
admission order equals the call order).  `mid vs i j` is the channel state
after `i` sender events and `j` receive events of such a conversation have
run, in any order: `min i j` slots have been delivered, the surplus side is
queued (buffered slots resp. pending readers), and each delivery `k` resolved
awaiter `k` and returned slot `k`. -/

/-- Interleaving of two sequences (an arbitrary shuffle preserving both
orders). -/
inductive Interleave : List β → List β → List β → Prop where
  | nil : Interleave [] [] []
  | left {x l1 l2 l} : Interleave l1 l2 l → Interleave (x :: l1) l2 (x :: l)
  | right {x l1 l2 l} : Interleave l1 l2 l → Interleave l1 (x :: l2) (x :: l)

/-- The slots admitted by a conversation that sends `vs` and then ends. -/
def slots (vs : List α) : List (Slot α) := vs.map Slot.value ++ [Slot.eof]

/-- The sender operation admitting a given slot. -/
def slotOp : Slot α → Op α
  | .value v => Op.send v
  | .eof => Op.sendEnd

/-- Observations of delivery number `k`: awaiter `k` is resolved and receive
`k` returns slot `k`, within one atomic event. -/
def chunk (vs : List α) (k : Nat) : List (Obs α) :=
  [Obs.ackResolved k, Obs.received k ((slots vs).getD k Slot.eof)]

/-- Observations of the deliveries from number `d` to the end of the
conversation. -/
def chunks (vs : List α) (d : Nat) : List (Obs α) :=
  ((List.range' d (vs.length + 1 - d)).map (chunk vs)).flatten

/-- Channel state after `i` sender events and `j` receiver events of the
conversation sending `vs` then ending, interleaved arbitrarily. -/
def mid (vs : List α) (i j : Nat) : Chan α :=
  { status := if min i j = vs.length + 1 then Status.ENDED_BY_SENDER else Status.OPEN
    awaiters := List.range' (min i j) (i - min i j)
    buffer := ((slots vs).drop (min i j)).take (i - min i j)
    readers := List.range' (min i j) (j - min i j)
    nextSend := i
    nextRecv := j }

theorem range'_snoc (s n : Nat) :
    List.range' s (n + 1) = List.range' s n ++ [s + n] := by
  induction n generalizing s with
  | zero => simp
  | succ n ih =>
    rw [List.range'_succ, ih (s + 1), List.range'_succ]
    simp [Nat.add_assoc, Nat.add_comm, Nat.add_left_comm]

theorem slots_length (vs : List α) : (slots vs).length = vs.length + 1 := by
  simp [slots]

theorem slots_getD_eof_iff (vs : List α) (i : Nat) (h : i ≤ vs.length) :
    (slots vs).getD i Slot.eof = Slot.eof ↔ i = vs.length := by
  induction vs generalizing i with
  | nil =>
    have h0 : i = 0 := by simpa using h
    subst h0
    simp [slots]
  | cons v tl ih =>
    cases i with
    | zero => simp [slots]
    | succ i =>
      have := ih i (by simpa using h)
      simpa [slots] using this

theorem mid_zero_zero (vs : List α) : mid vs 0 0 = Chan.init α := by
  simp [mid, Chan.init]

/-- Dropping `i` slots exposes slot `i` at the head. -/
theorem slots_drop_cons (vs : List α) (i : Nat) (h : i < vs.length + 1) :
    (slots vs).drop i = (slots vs).getD i Slot.eof :: (slots vs).drop (i + 1) := by
  have hlt : i < (slots vs).length := by rw [slots_length]; omega
  rw [List.drop_eq_getElem_cons hlt]
  congr 1
  rw [List.getD_eq_getElem?_getD, List.getElem?_eq_getElem hlt]
  rfl

/-- A sender event while a receiver is waiting: the slot is handed to the
oldest pending reader and delivery `i` happens within the same event. -/
theorem step_mid_send_deliver (vs : List α) (i j : Nat)
    (hij : i < j) (hi : i ≤ vs.length) :
    step (mid vs i j) (slotOp ((slots vs).getD i Slot.eof))
      = (mid vs (i + 1) j, chunk vs i) := by
  have hmin : min i j = i := Nat.min_eq_left (Nat.le_of_lt hij)
  have hmin' : min (i + 1) j = i + 1 := Nat.min_eq_left hij
  have hopen : ¬ (i = vs.length + 1) := by omega
  have hread : List.range' i (j - i) = i :: List.range' (i + 1) (j - (i + 1)) := by
    rw [show j - i = (j - (i + 1)) + 1 by omega, List.range'_succ]
  rcases hsv : (slots vs).getD i Slot.eof with v | _
  · have hlen : ¬ (i + 1 = vs.length + 1) := by
      intro hh
      rw [(slots_getD_eof_iff vs i hi).mpr (by omega)] at hsv
      exact Slot.noConfusion hsv
    simp only [slotOp, step, sendSlot, mid, hmin, hmin', Nat.sub_self,
      List.range'_zero, List.nil_append, if_neg hopen, hread, enqueue,
      recvContinue, chunk, hsv, List.take_zero, if_neg hlen]
  · have hlen : i + 1 = vs.length + 1 := by
      have := (slots_getD_eof_iff vs i hi).mp hsv
      omega
    simp only [slotOp, step, sendSlot, mid, hmin, hmin', Nat.sub_self,
      List.range'_zero, List.nil_append, if_neg hopen, hread, enqueue,
      recvContinue, chunk, hsv, List.take_zero, if_pos hlen]

/-- A sender event with no receiver waiting: the slot is appended to the
buffer and the fresh awaiter stays pending. -/
theorem step_mid_send_buffer (vs : List α) (i j : Nat)
    (hji : j ≤ i) (hi : i ≤ vs.length) :
    step (mid vs i j) (slotOp ((slots vs).getD i Slot.eof))
      = (mid vs (i + 1) j, []) := by
  have hmin : min i j = j := Nat.min_eq_right hji
  have hmin' : min (i + 1) j = j := Nat.min_eq_right (by omega)
  have hopen : ¬ (j = vs.length + 1) := by omega
  have hlt : i < (slots vs).length := by rw [slots_length]; omega
  have hawa : List.range' j (i - j) ++ [i] = List.range' j (i + 1 - j) := by
    rw [show i + 1 - j = (i - j) + 1 by omega, range'_snoc]
    congr 2
    omega
  have hbuf : ((slots vs).drop j).take (i - j) ++ [(slots vs).getD i Slot.eof]
      = ((slots vs).drop j).take (i + 1 - j) := by
    rw [show i + 1 - j = (i - j) + 1 by omega, List.take_succ]
    congr 1
    rw [List.getElem?_drop, show j + (i - j) = i by omega,
      List.getElem?_eq_getElem hlt, List.getD_eq_getElem?_getD,
      List.getElem?_eq_getElem hlt]
    rfl
  rcases hsv : (slots vs).getD i Slot.eof with v | _ <;>
    rw [hsv] at hbuf <;>
    simp only [slotOp, step, sendSlot, mid, hmin, hmin', Nat.sub_self,
      List.range'_zero, if_neg hopen, enqueue, hawa, hbuf]

/-- A receive event with a non-empty buffer: the oldest slot is popped and
delivery `j` happens within the same event. -/
theorem step_mid_recv_deliver (vs : List α) (i j : Nat)
    (hji : j < i) (hi : i ≤ vs.length + 1) :
    step (mid vs i j) Op.receive = (mid vs i (j + 1), chunk vs j) := by
  have hmin : min i j = j := Nat.min_eq_right (Nat.le_of_lt hji)
  have hmin' : min i (j + 1) = j + 1 := Nat.min_eq_right hji
  have hopen : ¬ (j = vs.length + 1) := by omega
  have hjlt : j ≤ vs.length := by omega
  have hbufc : ((slots vs).drop j).take (i - j)
      = (slots vs).getD j Slot.eof :: ((slots vs).drop (j + 1)).take (i - (j + 1)) := by
    rw [slots_drop_cons vs j (by omega), show i - j = (i - (j + 1)) + 1 by omega]
    rfl
  have hawa : List.range' j (i - j) = j :: List.range' (j + 1) (i - (j + 1)) := by
    rw [show i - j = (i - (j + 1)) + 1 by omega, List.range'_succ]
  rcases hsv : (slots vs).getD j Slot.eof with v | _
  · have hlen : ¬ (j + 1 = vs.length + 1) := by
      intro hh
      rw [(slots_getD_eof_iff vs j hjlt).mpr (by omega)] at hsv
      exact Slot.noConfusion hsv
    rw [hsv] at hbufc
    simp only [step, receiveStep, mid, hmin, hmin', Nat.sub_self,
      List.range'_zero, if_neg hopen, hbufc, hawa, recvContinue, chunk, hsv,
      if_neg hlen]
  · have hlen : j + 1 = vs.length + 1 := by
      have := (slots_getD_eof_iff vs j hjlt).mp hsv
      omega
    rw [hsv] at hbufc
    simp only [step, receiveStep, mid, hmin, hmin', Nat.sub_self,
      List.range'_zero, if_neg hopen, hbufc, hawa, recvContinue, chunk, hsv,
      if_pos hlen]

/-- A receive event with an empty buffer: the call suspends as the newest
pending reader. -/
theorem step_mid_recv_wait (vs : List α) (i j : Nat)
    (hij : i ≤ j) (hj : j ≤ vs.length) :
    step (mid vs i j) Op.receive = (mid vs i (j + 1), []) := by
  have hmin : min i j = i := Nat.min_eq_left hij
  have hmin' : min i (j + 1) = i := Nat.min_eq_left (by omega)
  have hopen : ¬ (i = vs.length + 1) := by omega
  have hread : List.range' i (j - i) ++ [j] = List.range' i (j + 1 - i) := by
    rw [show j + 1 - i = (j - i) + 1 by omega, range'_snoc]
    congr 2
    omega
  simp only [step, receiveStep, mid, hmin, hmin', Nat.sub_self, List.take_zero,
    List.range'_zero, if_neg hopen, hread]

theorem chunks_succ (vs : List α) (d : Nat) (h : d ≤ vs.length) :
    chunks vs d = chunk vs d ++ chunks vs (d + 1) := by
  unfold chunks
  rw [show vs.length + 1 - d = (vs.length + 1 - (d + 1)) + 1 by omega,
    List.range'_succ]
  simp

theorem run_cons (c : Chan α) (op : Op α) (ops : List (Op α)) :
    run c (op :: ops)
      = ((run (step c op).1 ops).1, (step c op).2 ++ (run (step c op).1 ops).2) :=
  rfl

/-- Master lemma: from any mid-conversation state, running the remaining
interleaved events finishes the conversation and emits exactly the remaining
deliveries, in order. -/
theorem run_mid (vs : List α) {sends recvs ops : List (Op α)}
    (h : Interleave sends recvs ops) :
    ∀ i j, sends = ((slots vs).drop i).map slotOp →
      recvs = List.replicate (vs.length + 1 - j) Op.receive →
      i ≤ vs.length + 1 → j ≤ vs.length + 1 →
      run (mid vs i j) ops
        = (mid vs (vs.length + 1) (vs.length + 1), chunks vs (min i j)) := by
  induction h with
  | nil =>
    intro i j hs hr hi hj
    have hi' : i = vs.length + 1 := by
      have := congrArg List.length hs
      simp [slots_length] at this
      omega
    have hj' : j = vs.length + 1 := by
      have := congrArg List.length hr
      simp at this
      omega
    subst hi'
    subst hj'
    simp [run, chunks]
  | @left x l1 l2 l hl ih =>
    intro i j hs hr hi hj
    have hlen : i < vs.length + 1 := by
      by_contra hc
      have hd : (slots vs).drop i = [] :=
        List.drop_eq_nil_of_le (by rw [slots_length]; omega)
      rw [hd] at hs
      simp at hs
    rw [slots_drop_cons vs i hlen, List.map_cons] at hs
    injection hs with hx hl1
    subst hx
    rw [run_cons]
    by_cases hij : i < j
    · rw [step_mid_send_deliver vs i j hij (by omega)]
      rw [ih (i + 1) j hl1 hr (by omega) hj]
      have h1 : min i j = i := Nat.min_eq_left (Nat.le_of_lt hij)
      have h2 : min (i + 1) j = i + 1 := Nat.min_eq_left hij
      rw [h1, h2, chunks_succ vs i (by omega)]
    · have hji : j ≤ i := by omega
      rw [step_mid_send_buffer vs i j hji (by omega)]
      rw [ih (i + 1) j hl1 hr (by omega) hj]
      have h1 : min i j = j := Nat.min_eq_right hji
      have h2 : min (i + 1) j = j := Nat.min_eq_right (by omega)
      rw [h1, h2]
      simp
  | @right x l1 l2 l hl ih =>
    intro i j hs hr hi hj
    have hjlt : j < vs.length + 1 := by
      by_contra hc
      rw [show vs.length + 1 - j = 0 by omega] at hr
      simp at hr
    rw [show vs.length + 1 - j = (vs.length + 1 - (j + 1)) + 1 by omega,
      List.replicate_succ] at hr
    injection hr with hx hl2
    subst hx
    rw [run_cons]
    by_cases hji : j < i
    · rw [step_mid_recv_deliver vs i j hji hi]
      rw [ih i (j + 1) hs hl2 hi (by omega)]
      have h1 : min i j = j := Nat.min_eq_right (Nat.le_of_lt hji)
      have h2 : min i (j + 1) = j + 1 := Nat.min_eq_right hji
      rw [h1, h2, chunks_succ vs j (by omega)]
    · have hij : i ≤ j := by omega
      rw [step_mid_recv_wait vs i j hij (by omega)]
      rw [ih i (j + 1) hs hl2 hi (by omega)]
      have h1 : min i j = i := Nat.min_eq_left hij
      have h2 : min i (j + 1) = i := Nat.min_eq_left (by omega)
      rw [h1, h2]
      simp

theorem ackIds_append (l1 l2 : List (Obs α)) :
    ackIds (l1 ++ l2) = ackIds l1 ++ ackIds l2 := by
  simp [ackIds]

theorem recvSlots_flatten_chunks (vs : List α) (l : List Nat) :
    recvSlots ((l.map (chunk vs)).flatten)
      = l.map (fun k => (slots vs).getD k Slot.eof) := by
  induction l with
  | nil => rfl
  | cons k l ih =>
    rw [List.map_cons, List.flatten_cons, recvSlots_append, ih]
    rfl

theorem ackIds_flatten_chunks (vs : List α) (l : List Nat) :
    ackIds ((l.map (chunk vs)).flatten) = l := by
  induction l with
  | nil => rfl
  | cons k l ih =>
    rw [List.map_cons, List.flatten_cons, ackIds_append, ih]
    rfl

theorem getD_range (L : List β) (d : β) :
    (List.range L.length).map (fun k => L.getD k d) = L := by
  induction L with
  | nil => rfl
  | cons a L ih =>
    rw [List.length_cons, List.range_succ_eq_map, List.map_cons, List.map_map]
    have hc : ((fun k => (a :: L).getD k d) ∘ Nat.succ) = fun k => L.getD k d := by
      funext k
      simp
    rw [hc, ih]
    simp

theorem chunks_zero (vs : List α) :
    chunks vs 0 = ((List.range (vs.length + 1)).map (chunk vs)).flatten := by
  unfold chunks
  rw [Nat.sub_zero, ← List.range_eq_range']

/-- Claim C1: FIFO delivery.  For every sequence of values `vs` sent on one
channel and then ended, under ANY interleaving of the sender events with the
`n + 1` receive calls that drain the channel (repeated `receive`, which is
also what iteration performs), the receives return exactly the values of `vs`
in order followed by the Eof marker: nothing is dropped, duplicated or
reordered. -/
theorem fifo_drain (vs : List α) (ops : List (Op α))
    (h : Interleave (vs.map Op.send ++ [Op.sendEnd])
      (List.replicate (vs.length + 1) Op.receive) ops) :
    recvSlots (run (Chan.init α) ops).2 = vs.map Slot.value ++ [Slot.eof] := by
  have hs : vs.map Op.send ++ [Op.sendEnd] = ((slots vs).drop 0).map slotOp := by
    simp [slots, slotOp]
  have hrun := run_mid vs h 0 0 hs (by simp) (by omega) (by omega)
  rw [mid_zero_zero] at hrun
  simp only [hrun]
  rw [show min 0 0 = 0 from rfl, chunks_zero, recvSlots_flatten_chunks]
  have hr := getD_range (slots vs) Slot.eof
  rw [slots_length] at hr
  rw [hr]
  rfl

/-- Witness for C1: values 1, 2 sent with a receive interleaved between them,
then end and the remaining receives; the drain returns 1, 2, Eof. -/
theorem fifo_drain_witness :
    recvSlots (run (Chan.init Nat)
        [Op.send 1, Op.receive, Op.send 2, Op.sendEnd, Op.receive, Op.receive]).2
      = [Slot.value 1, Slot.value 2, Slot.eof] :=
  fifo_drain [1, 2] _
    (Interleave.left (Interleave.right (Interleave.left (Interleave.left
      (Interleave.right (Interleave.right Interleave.nil))))))

/-- Claim C2: acknowledgment pairing.  In any interleaving of the sender
events `send v1 … send vn, end` with the `n + 1` draining receive calls, the
full observation trace is exactly the deliveries `0 … n` in order, where
delivery `k` resolves the promise of send call `k` in the same atomic event in
which receive call `k` (in receive-call order) claims slot `k` — so the k-th
send resolves never earlier than the k-th receive's claim, and resolution is
one-to-one in send order (second conjunct: the resolved ids are exactly
`0 … n` in order). -/
theorem ack_pairing (vs : List α) (ops : List (Op α))
    (h : Interleave (vs.map Op.send ++ [Op.sendEnd])
      (List.replicate (vs.length + 1) Op.receive) ops) :
    (run (Chan.init α) ops).2
      = ((List.range (vs.length + 1)).map (chunk vs)).flatten ∧
    ackIds (run (Chan.init α) ops).2 = List.range (vs.length + 1) := by
  have hs : vs.map Op.send ++ [Op.sendEnd] = ((slots vs).drop 0).map slotOp := by
    simp [slots, slotOp]
  have hrun := run_mid vs h 0 0 hs (by simp) (by omega) (by omega)
  rw [mid_zero_zero] at hrun
  simp only [hrun]
  rw [show min 0 0 = 0 from rfl, chunks_zero]
  exact ⟨rfl, ackIds_flatten_chunks vs (List.range (vs.length + 1))⟩

/-- Witness for C2: a receive suspends first, then 5 is sent, the channel is
ended and a final receive drains; the trace is delivery 0 then delivery 1. -/
theorem ack_pairing_witness :
    (run (Chan.init Nat) [Op.receive, Op.send 5, Op.sendEnd, Op.receive]).2
      = ((List.range 2).map (chunk [5])).flatten ∧
    ackIds (run (Chan.init Nat) [Op.receive, Op.send 5, Op.sendEnd, Op.receive]).2
      = List.range 2 :=
  ack_pairing [5] _
    (Interleave.right (Interleave.left (Interleave.left
      (Interleave.right Interleave.nil))))

/-! ### The bounded stream of `src/src/corsa.ts`

`Stream<T>` keeps a `queue` of buffered values, suspended `writers` and
suspended readers (`sinks`).  `write` suspends exactly when
`queue.length >= bounds`; `read` first resumes the oldest suspended writer
and then pops the buffer or suspends.  A resumed writer delivers its value in
a later continuation (`await writePause()` resumes in a microtask); the model
makes that continuation the explicit `wokenRun` event.  `Memory<T>` of
`src/src/channels/channel.ts` implements the same admission logic. -/

/-- Observable effects of a stream event: resolution of a write call's promise
and a value returned to a read call. -/
inductive SObs (α : Type) where
  | writeResolved (wid : Nat)
  | readGot (rid : Nat) (v : α)
deriving DecidableEq, Repr

/-- State of a `Stream<T>`: `writers` are suspended write calls (with the value
each will deliver once resumed), `woken` are writes already resumed by a read
whose delivery continuation has not yet run, `sinks` are suspended read calls.
`nextW` / `nextR` are ghost counters numbering write and read calls. -/
structure Stream (α : Type) where
  bounds : Nat
  writers : List (Nat × α)
  woken : List (Nat × α)
  sinks : List Nat
  queue : List α
  nextW : Nat
  nextR : Nat
deriving DecidableEq, Repr

/-- Fresh stream with the given bound, as built by `new Stream<T>(bounds)`. -/
def Stream.init (α : Type) (bounds : Nat) : Stream α :=
  { bounds := bounds, writers := [], woken := [], sinks := [], queue := []
    nextW := 0, nextR := 0 }

/-- `Stream.readResume` (lines 164-170 of `src/src/corsa.ts`): give the value
to the oldest suspended read if one exists, otherwise push it onto the
queue. -/
def readResume (s : Stream α) (v : α) : Stream α × List (SObs α) :=
  match s.sinks with
  | rid :: rest => ({ s with sinks := rest }, [SObs.readGot rid v])
  | [] => ({ s with queue := s.queue ++ [v] }, [])

/-- `Stream.write` (lines 116-123 of `src/src/corsa.ts`): if
`queue.length >= bounds` the caller suspends (its promise stays unresolved and
the value is delivered only after it is resumed); otherwise the value is
delivered at once and the promise resolves. -/
def writeStep (s : Stream α) (v : α) : Stream α × List (SObs α) :=
  if s.bounds ≤ s.queue.length then
    ({ s with writers := s.writers ++ [(s.nextW, v)], nextW := s.nextW + 1 }, [])
  else
    let p := readResume { s with nextW := s.nextW + 1 } v
    (p.1, p.2 ++ [SObs.writeResolved s.nextW])

/-- `Stream.writeResume` (lines 151-156 of `src/src/corsa.ts`): resume the
oldest suspended writer; its delivery continuation becomes pending. -/
def writeResume (s : Stream α) : Stream α :=
  match s.writers with
  | w :: rest => { s with writers := rest, woken := s.woken ++ [w] }
  | [] => s

/-- `Stream.read` (lines 136-143 of `src/src/corsa.ts`): first wake the oldest
suspended writer, then pop the oldest buffered value if the buffer is
non-empty, otherwise suspend as the newest sink. -/
def readStep (s : Stream α) : Stream α × List (SObs α) :=
  let t := writeResume { s with nextR := s.nextR + 1 }
  match t.queue with
  | v :: rest => ({ t with queue := rest }, [SObs.readGot s.nextR v])
  | [] => ({ t with sinks := t.sinks ++ [s.nextR] }, [])

/-- Delivery continuation of the oldest woken writer: the tail of
`Stream.write` after `await writePause()` returns (`readResume(value)`, then
the write's promise resolves). -/
def wokenStep (s : Stream α) : Stream α × List (SObs α) :=
  match s.woken with
  | (wid, v) :: rest =>
    let p := readResume { s with woken := rest } v
    (p.1, p.2 ++ [SObs.writeResolved wid])
  | [] => (s, [])

/-- Stream events: a write call, a read call, and the scheduler running the
pending continuation of the oldest woken writer. -/
inductive SOp (α : Type) where
  | write (v : α)
  | read
  | wokenRun
deriving DecidableEq, Repr

/-- One atomic stream event. -/
def sstep (s : Stream α) (op : SOp α) : Stream α × List (SObs α) :=
  match op with
  | .write v => writeStep s v
  | .read => readStep s
  | .wokenRun => wokenStep s

/-- Run a sequence of stream events, concatenating their observations. -/
def srun (s : Stream α) (ops : List (SOp α)) : Stream α × List (SObs α) :=
  match ops with
  | [] => (s, [])
  | op :: rest =>
    let p := sstep s op
    let q := srun p.1 rest
    (q.1, p.2 ++ q.2)

theorem srun_cons (s : Stream α) (op : SOp α) (ops : List (SOp α)) :
    srun s (op :: ops)
      = ((srun (sstep s op).1 ops).1,
         (sstep s op).2 ++ (srun (sstep s op).1 ops).2) :=
  rfl

theorem srun_append (s : Stream α) (l1 l2 : List (SOp α)) :
    srun s (l1 ++ l2)
      = ((srun (srun s l1).1 l2).1, (srun s l1).2 ++ (srun (srun s l1).1 l2).2) := by
  induction l1 generalizing s with
  | nil => simp [srun]
  | cons op rest ih => simp [srun, ih, List.append_assoc]

/-- Writes that stay under the bound resolve immediately, in call order, and
simply extend the queue. -/
theorem srun_writes (vs : List α) :
    ∀ (s : Stream α), s.sinks = [] → s.queue.length + vs.length ≤ s.bounds →
      srun s (vs.map SOp.write)
        = ({ s with queue := s.queue ++ vs, nextW := s.nextW + vs.length },
           (List.range' s.nextW vs.length).map SObs.writeResolved) := by
  induction vs with
  | nil =>
    intro s h1 h2
    simp [srun]
  | cons v vs ih =>
    intro s h1 h2
    obtain ⟨b, ws, wo, sk, q, nw, nr⟩ := s
    simp only at h1 h2 ⊢
    subst h1
    have hc : ¬ (b ≤ q.length) := by
      simp [List.length_cons] at h2
      omega
    rw [List.map_cons, srun_cons]
    have hstep : sstep ⟨b, ws, wo, [], q, nw, nr⟩ (SOp.write v)
        = (⟨b, ws, wo, [], q ++ [v], nw + 1, nr⟩, [SObs.writeResolved nw]) := by
      simp [sstep, writeStep, if_neg hc, readResume]
    rw [hstep]
    have ihh := ih ⟨b, ws, wo, [], q ++ [v], nw + 1, nr⟩ rfl
      (by simp at h2 ⊢; omega)
    simp only at ihh
    rw [ihh]
    simp [List.length_cons, List.range'_succ, List.append_assoc, Nat.add_assoc,
      Nat.add_comm, Nat.add_left_comm]

/-- Claim C6: bounded admission.  First conjunct: a write suspends (one more
suspended writer) exactly when the queue length is at least the bound at the
time of the write.  Then, for a stream of capacity `C`: after `C` writes and
one more, the observations are exactly the resolutions of the first `C` write
promises (so the `C+1`-th promise is unresolved while no read has occurred)
and the `C+1`-th write is suspended; and after one read and the woken writer's
continuation, the `C+1`-th write's promise is resolved. -/
theorem bounded_admission (C : Nat) (vs : List α) (hlen : vs.length = C) (w : α) :
    (∀ (s : Stream α) (v : α),
        (sstep s (SOp.write v)).1.writers.length = s.writers.length + 1
          ↔ s.bounds ≤ s.queue.length) ∧
    (srun (Stream.init α C) (vs.map SOp.write ++ [SOp.write w])).2
      = (List.range C).map SObs.writeResolved ∧
    (srun (Stream.init α C) (vs.map SOp.write ++ [SOp.write w])).1.writers
      = [(C, w)] ∧
    SObs.writeResolved C
      ∈ (srun (Stream.init α C)
          (vs.map SOp.write ++ [SOp.write w, SOp.read, SOp.wokenRun])).2 := by
  subst hlen
  have hphase := srun_writes vs (Stream.init α vs.length) rfl
    (by simp [Stream.init])
  have hall : srun (Stream.init α vs.length) (vs.map SOp.write ++ [SOp.write w])
      = (⟨vs.length, [(vs.length, w)], [], [], vs, vs.length + 1, 0⟩,
         (List.range' 0 vs.length).map SObs.writeResolved) := by
    rw [srun_append, hphase]
    simp [srun, sstep, writeStep, Stream.init]
  refine ⟨?_, ?_, ?_, ?_⟩
  · intro s v
    obtain ⟨b, ws, wo, sk, q, nw, nr⟩ := s
    by_cases hc : b ≤ q.length
    · simp [sstep, writeStep, if_pos hc, hc]
    · cases sk with
      | nil =>
        simp only [sstep, writeStep, if_neg hc, readResume]
        simp [hc]
      | cons r rs =>
        simp only [sstep, writeStep, if_neg hc, readResume]
        simp [hc]
  · rw [hall, ← List.range_eq_range']
  · rw [hall]
  · rw [show vs.map SOp.write ++ [SOp.write w, SOp.read, SOp.wokenRun]
        = (vs.map SOp.write ++ [SOp.write w]) ++ [SOp.read, SOp.wokenRun] by simp]
    rw [srun_append, hall]
    rcases vs with _ | ⟨v0, rest⟩
    · simp [srun, sstep, readStep, writeResume, wokenStep, readResume]
    · simp [srun, sstep, readStep, writeResume, wokenStep, readResume]

/-- Witness for C6 at capacity 2: writes of 10 and 20 resolve at once, the
write of 30 stays suspended, and it resolves after one read and the pending
continuation. -/
theorem bounded_admission_witness :
    (srun (Stream.init Nat 2) ([10, 20].map SOp.write ++ [SOp.write 30])).2
      = (List.range 2).map SObs.writeResolved ∧
    SObs.writeResolved 2
      ∈ (srun (Stream.init Nat 2)
          ([10, 20].map SOp.write ++ [SOp.write 30, SOp.read, SOp.wokenRun])).2 := by
  have h := bounded_admission 2 [10, 20] rfl 30
  exact ⟨h.2.1, h.2.2.2⟩

/-- Claim C9: every `read` call wakes the oldest suspended writer if one
exists (it moves from the suspended list to the pending-continuation list) as
a side effect, before the buffer is inspected: the read then pops and returns
the oldest value of the pre-read buffer when it is non-empty, and otherwise
suspends as the newest sink.  Last conjunct: a later under-bound write
delivers its value directly to the oldest suspended sink. -/
theorem read_wakes_then_pops (s : Stream α) :
    ((sstep s SOp.read).1.writers = s.writers.tail ∧
     (sstep s SOp.read).1.woken = s.woken ++ s.writers.take 1) ∧
    (∀ (v : α) (rest : List α), s.queue = v :: rest →
        (sstep s SOp.read).2 = [SObs.readGot s.nextR v] ∧
        (sstep s SOp.read).1.queue = rest) ∧
    (s.queue = [] →
        (sstep s SOp.read).2 = [] ∧
        (sstep s SOp.read).1.sinks = s.sinks ++ [s.nextR]) ∧
    (∀ (v : α) (rid : Nat) (rest : List Nat), s.sinks = rid :: rest →
        s.queue.length < s.bounds →
        (sstep s (SOp.write v)).2
          = [SObs.readGot rid v, SObs.writeResolved s.nextW]) := by
  obtain ⟨b, ws, wo, sk, q, nw, nr⟩ := s
  refine ⟨⟨?_, ?_⟩, ?_, ?_, ?_⟩
  · cases ws <;> cases q <;> simp [sstep, readStep, writeResume]
  · cases ws <;> cases q <;> simp [sstep, readStep, writeResume]
  · intro v rest hq
    simp only at hq
    subst hq
    cases ws <;> simp [sstep, readStep, writeResume]
  · intro hq
    simp only at hq
    subst hq
    cases ws <;> simp [sstep, readStep, writeResume]
  · intro v rid rest hsk hlt
    simp only at hsk hlt
    subst hsk
    simp [sstep, writeStep, if_neg (show ¬ b ≤ q.length by omega), readResume]

/-- Witness for C9: a read on a stream with one suspended writer and one
buffered value pops the buffered 99 and wakes the writer; a write on a stream
with a waiting sink delivers directly to it. -/
theorem read_wakes_then_pops_witness :
    (sstep (⟨1, [(7, 42)], [], [], [99], 8, 3⟩ : Stream Nat) SOp.read).2
      = [SObs.readGot 3 99] ∧
    (sstep (⟨1, [(7, 42)], [], [], [99], 8, 3⟩ : Stream Nat) SOp.read).1.woken
      = [(7, 42)] ∧
    (sstep (⟨2, [], [], [4], [], 9, 5⟩ : Stream Nat) (SOp.write 11)).2
      = [SObs.readGot 4 11, SObs.writeResolved 9] := by
  refine ⟨?_, ?_, ?_⟩
  · exact ((read_wakes_then_pops _).2.1 99 [] rfl).1
  · have h := (read_wakes_then_pops
      (⟨1, [(7, 42)], [], [], [99], 8, 3⟩ : Stream Nat)).1.2
    simpa using h
  · exact (read_wakes_then_pops _).2.2.2 11 4 [] rfl (by decide)

end Corsa
